import Mathlib

/-!
Verification development for the `agent-starter-python` repository.

Part 1 embeds the pure logic of `src/agent.py` (`should_join_room`,
`create_mcp_servers`, the instruction selection in `Assistant.__init__`).
Python values occurring as dictionary entries are modelled by `PyVal`;
Python's `int(...)` conversion, which can raise `ValueError`/`TypeError`,
is modelled by an `Except` computation.

Part 2 models, from the specification, the streaming JSON field-extraction
pipeline (accumulator, mode detector, tolerant partial parser, field
extractor, delta emitter) that the specification describes; that component
is not present under `src/`.
-/

/-- A Python value as it can occur in the metadata / configuration
dictionaries handled by `agent.py`: `None`, an `int`, or a `str`.
(Other value kinds do not occur in the code paths embedded here.) -/
inductive PyVal where
  | pynone
  | int (i : Int)
  | str (s : String)
deriving DecidableEq, Repr

/-- The two exception kinds caught by `should_join_room`. -/
inductive PyErr where
  | valueError
  | typeError
deriving DecidableEq, Repr

/-- Parse a non-empty all-digit character list as a natural number. -/
def parseDigits (cs : List Char) : Option Nat :=
  if cs ≠ [] && cs.all Char.isDigit then
    some (cs.foldl (fun n c => n * 10 + (c.toNat - '0'.toNat)) 0)
  else none

/-- Decimal integer parsing as done by Python's `int(str)` on plain
decimal forms: an optional sign followed by digits. -/
def pyIntParse (s : String) : Option Int :=
  match s.data with
  | '-' :: rest => (parseDigits rest).map (fun n => -(n : Int))
  | '+' :: rest => (parseDigits rest).map (fun n => (n : Int))
  | cs => (parseDigits cs).map (fun n => (n : Int))

/-- Python's `int(x)` conversion on a `PyVal`: an `int` converts to itself,
a `str` is parsed as a decimal integer (raising `ValueError` when it does
not parse), and `None` raises `TypeError`. -/
def pyToInt : PyVal → Except PyErr Int
  | .int i => .ok i
  | .str s =>
    match pyIntParse s with
    | some i => .ok i
    | none => .error .valueError
  | .pynone => .error .typeError

/-- A Python dictionary with string keys, as an association list. -/
abbrev PyDict := List (String × PyVal)

/-- Python's `d.get(k)`: the stored value, or `None` when the key is absent. -/
def dictGet (d : PyDict) (k : String) : PyVal :=
  match d.find? (fun kv => kv.1 = k) with
  | some kv => kv.2
  | none => .pynone

/-- Python's `d.get(k, default)`: the stored value, or `default` when the
key is absent. -/
def dictGetD (d : PyDict) (k : String) (default : PyVal) : PyVal :=
  match d.find? (fun kv => kv.1 = k) with
  | some kv => kv.2
  | none => default

/-- Python's `k in d`. -/
def dictHasKey (d : PyDict) (k : String) : Bool :=
  (d.find? (fun kv => kv.1 = k)).isSome

/-- Python truthiness for the `PyVal`s modelled here: `None` is falsy,
an `int` is truthy iff non-zero, a `str` is truthy iff non-empty. -/
def truthy : PyVal → Bool
  | .pynone => false
  | .int i => i ≠ 0
  | .str s => s ≠ ""

/-- `should_join_room` from `src/agent.py` (lines 123-141): reads
`instruction_id` (absent ⇒ `None`) and `metaverse_id` (absent ⇒ `1`),
returns `(True, int(instruction_id), int(metaverse_id))` when
`instruction_id` is not `None` and converts to an integer greater than 0,
`(False, 0, 1)` otherwise; `ValueError`/`TypeError` from either `int(...)`
conversion is caught and also yields `(False, 0, 1)`. -/
def should_join_room (metadata : PyDict) : Bool × Int × Int :=
  let body : Except PyErr (Bool × Int × Int) :=
    let instruction_id := dictGet metadata "instruction_id"
    let metaverse_id := dictGetD metadata "metaverse_id" (.int 1)
    if instruction_id ≠ PyVal.pynone then
      match pyToInt instruction_id with
      | .error e => .error e
      | .ok iid =>
        if iid > 0 then
          match pyToInt metaverse_id with
          | .error e => .error e
          | .ok mid => .ok (true, iid, mid)
        else .ok (false, 0, 1)
    else .ok (false, 0, 1)
  match body with
  | .ok r => r
  | .error _ => (false, 0, 1)

/-- One entry of the list built by `create_mcp_servers`: the dictionary
`{"name": ..., "transport": ..., "url": ...}` plus the optional
`headers` / `env` fields copied from the source configuration. -/
structure MCPServer where
  name : PyVal
  transport : PyVal
  url : PyVal
  headers : Option PyVal
  env : Option PyVal
deriving DecidableEq, Repr

/-- The entry `create_mcp_servers` builds from one configuration element. -/
def mkServer (config : PyDict) : MCPServer :=
  { name := dictGet config "name"
    transport := dictGetD config "transport" (.str "websocket")
    url := dictGet config "url"
    headers := if dictHasKey config "headers" then some (dictGet config "headers") else none
    env := if dictHasKey config "env" then some (dictGet config "env") else none }

/-- `create_mcp_servers` from `src/agent.py` (lines 81-120): iterates over
the configuration list, skips (`continue`) any element whose `name` or
`url` is missing or falsy, and appends an entry carrying name, transport
(default `"websocket"`), url and the optional `headers`/`env`. -/
def create_mcp_servers : List PyDict → List MCPServer
  | [] => []
  | config :: rest =>
    if truthy (dictGet config "name") && truthy (dictGet config "url") then
      mkServer config :: create_mcp_servers rest
    else
      create_mcp_servers rest

/-- The built-in default instructions of `Assistant.__init__`
(`src/agent.py` lines 147-150). -/
def default_instructions : String :=
  "You are a helpful voice AI assistant.\n            You eagerly assist users with their questions by providing information from your extensive knowledge.\n            Your responses are concise, to the point, and without any complex formatting or punctuation including emojis, asterisks, or other symbols.\n            You are curious, friendly, and have a sense of humor."

/-- Python's `a or b` for an optional string `a` (default `None`): yields
`a` when it is truthy (a non-empty string), `b` otherwise. -/
def pyOrStr (a : Option String) (b : String) : String :=
  match a with
  | some s => if s ≠ "" then s else b
  | none => b

/-- The instructions chosen by `Assistant.__init__` (`src/agent.py`
lines 145-155): `instructions or default_instructions`. -/
def assistant_instructions (instructions : Option String) : String :=
  pyOrStr instructions default_instructions

/-!
Part 2: the streaming extraction pipeline.

Modelled from the spec: the repository's streaming JSON field-extraction
component (Accumulator, Mode Detector, Tolerant Partial Parser, Field
Extractor, Delta Emitter of spec sections 2-4) is not present under
`src/`; all definitions below follow the specification's words.
Text is modelled as `List Char`; a chunk stream is a `List Str`.
-/

/-- Text, modelled as a list of characters. -/
abbrev Str := List Char

/-- JSON whitespace. -/
def isWs (c : Char) : Bool :=
  c = ' ' || c = '\t' || c = '\n' || c = '\r'

/-- Decoding of a single-character JSON escape (the character following a
backslash inside a string literal). `\u` escapes are outside this model. -/
def decodeEscape (c : Char) : Option Char :=
  if c = '\"' then some '\"'
  else if c = '\\' then some '\\'
  else if c = '/' then some '/'
  else if c = 'n' then some '\n'
  else if c = 't' then some '\t'
  else if c = 'r' then some '\r'
  else if c = 'b' then some (Char.ofNat 8)
  else if c = 'f' then some (Char.ofNat 12)
  else none

/-- Modelled from the spec: parser state of the Tolerant Partial Parser
(spec section 4.2) over a flat JSON object whose values are strings — the
only wire shape the spec recognizes (section 6). The accumulated members
are carried in `acc`; `failed` marks genuine malformation. -/
inductive PState where
  | start
  | expectKey (acc : List (Str × Str))
  | inKey (acc : List (Str × Str)) (k : Str)
  | inKeyEsc (acc : List (Str × Str)) (k : Str)
  | expectColon (acc : List (Str × Str)) (k : Str)
  | expectValue (acc : List (Str × Str)) (k : Str)
  | inValue (acc : List (Str × Str)) (k : Str) (v : Str)
  | inValueEsc (acc : List (Str × Str)) (k : Str) (v : Str)
  | afterValue (acc : List (Str × Str))
  | done (acc : List (Str × Str))
  | failed
deriving DecidableEq, Repr

/-- One character of tolerant parsing. -/
def pstep (s : PState) (c : Char) : PState :=
  match s with
  | .start =>
    if isWs c then .start else if c = '\x7b' then .expectKey [] else .failed
  | .expectKey acc =>
    if isWs c then .expectKey acc
    else if c = '\"' then .inKey acc []
    else if c = '\x7d' then .done acc
    else .failed
  | .inKey acc k =>
    if c = '\"' then .expectColon acc k
    else if c = '\\' then .inKeyEsc acc k
    else .inKey acc (k ++ [c])
  | .inKeyEsc acc k =>
    match decodeEscape c with
    | some d => .inKey acc (k ++ [d])
    | none => .failed
  | .expectColon acc k =>
    if isWs c then .expectColon acc k
    else if c = ':' then .expectValue acc k
    else .failed
  | .expectValue acc k =>
    if isWs c then .expectValue acc k
    else if c = '\"' then .inValue acc k []
    else .failed
  | .inValue acc k v =>
    if c = '\"' then .afterValue (acc ++ [(k, v)])
    else if c = '\\' then .inValueEsc acc k v
    else .inValue acc k (v ++ [c])
  | .inValueEsc acc k v =>
    match decodeEscape c with
    | some d => .inValue acc k (v ++ [d])
    | none => .failed
  | .afterValue acc =>
    if isWs c then .afterValue acc
    else if c = ',' then .expectKey acc
    else if c = '\x7d' then .done acc
    else .failed
  | .done acc =>
    if isWs c then .done acc
    else .failed
  | .failed => .failed

/-- Modelled from the spec (section 4.2): the tolerant close at the end of
the buffer — a state inside the last value string (even with a pending
escape, which is dropped rather than guessed) or past it closes the open
quote and the object; a state inside a key, before a value, or after a
malformed character yields `none` (the spec's `Incomplete`, which also
covers `MalformedTerminal` in the minimal reference behavior of
section 7). -/
def finalize : PState → Option (List (Str × Str))
  | .start => none
  | .expectKey acc => some acc
  | .inKey _ _ => none
  | .inKeyEsc _ _ => none
  | .expectColon _ _ => none
  | .expectValue _ _ => none
  | .inValue acc k v => some (acc ++ [(k, v)])
  | .inValueEsc acc k v => some (acc ++ [(k, v)])
  | .afterValue acc => some acc
  | .done acc => some acc
  | .failed => none

/-- Modelled from the spec: the Tolerant Partial Parser (section 4.2) —
parse the whole accumulated buffer, implicitly closing one trailing open
string and the trailing structural tokens; `none` is the spec's
`Incomplete`. -/
def tolerantParse (buf : Str) : Option (List (Str × Str)) :=
  finalize (buf.foldl pstep .start)

/-- Modelled from the spec: the Field Extractor in open-field mode
(section 4.3) — read the configured field from the partial mapping,
defaulting to the empty string when absent. -/
def extractField (field : Str) (m : List (Str × Str)) : Str :=
  match m.find? (fun kv => kv.1 = field) with
  | some kv => kv.2
  | none => []

/-- Modelled from the spec: the Delta Emitter (section 4.4) — compare the
newly extracted value against the cursor; on a prefix match emit the new
suffix (nothing when it is empty), otherwise resync by emitting the whole
new value; either way the cursor becomes the new value. Returns the
emitted fragments and the new cursor. -/
def emitDelta (cursor new : Str) : List Str × Str :=
  if cursor.isPrefixOf new then
    let d := new.drop cursor.length
    (if d = [] then [] else [d], new)
  else ([new], new)

/-- Modelled from the spec: the pipeline mode (section 3). -/
inductive Mode where
  | unknown
  | passthrough
  | structured
deriving DecidableEq, Repr

/-- Modelled from the spec: the state owned by one (stream, consumer)
pipeline — the mode, the accumulated buffer, and the emission cursor. -/
structure PipeState where
  mode : Mode
  buffer : Str
  cursor : Str
deriving DecidableEq, Repr

/-- The state of a pipeline before its first chunk. -/
def initState : PipeState := ⟨.unknown, [], []⟩

/-- Modelled from the spec: one structured-mode step — append the chunk to
the buffer (the Accumulator), run the tolerant parse, and on success
extract the field and run the Delta Emitter; on `Incomplete` emit nothing
and retry on the next chunk. -/
def structuredStep (field : Str) (st : PipeState) (chunk : Str) :
    PipeState × List Str :=
  let buf := st.buffer ++ chunk
  match tolerantParse buf with
  | none => ({ st with buffer := buf }, [])
  | some m =>
    let new := extractField field m
    let out := (emitDelta st.cursor new).1
    ({ st with buffer := buf, cursor := (emitDelta st.cursor new).2 }, out)

/-- Modelled from the spec: one pipeline step (sections 4.1 and 4.4) — in
passthrough mode forward the chunk unmodified; in unknown mode an empty
chunk leaves the mode undecided, a chunk starting with a brace decides
Structured, anything else decides Passthrough; in structured mode run
`structuredStep`. -/
def stepChunk (field : Str) (st : PipeState) (chunk : Str) :
    PipeState × List Str :=
  match st.mode with
  | .passthrough => (st, [chunk])
  | .structured => structuredStep field st chunk
  | .unknown =>
    match chunk with
    | [] => (st, [])
    | a :: rest =>
      if a = '\x7b' then
        structuredStep field { st with mode := .structured } (a :: rest)
      else
        ({ st with mode := .passthrough }, [a :: rest])

/-- Modelled from the spec: run the pipeline over a chunk sequence,
returning the final state and all emitted fragments in order. -/
def runPipe (field : Str) (st : PipeState) : List Str → PipeState × List Str
  | [] => (st, [])
  | c :: cs =>
    let s1 := (stepChunk field st c).1
    let o1 := (stepChunk field st c).2
    (( runPipe field s1 cs).1, o1 ++ (runPipe field s1 cs).2)

/-- All fragments emitted by a full pipeline run from the initial state. -/
def pipeOutputs (field : Str) (chunks : List Str) : List Str :=
  (runPipe field initState chunks).2

/-- The configured field name of the spec's wire shape (section 6). -/
def responseField : Str := "response".data

/-- The JSON escaping of one character: a quote or a backslash is
backslash-escaped, any other character stands for itself. -/
def escapeChar (c : Char) : Str :=
  if c = '\"' || c = '\\' then ['\\', c] else [c]

/-- The JSON escaping of a string body. -/
def escapeStr : Str → Str
  | [] => []
  | c :: s => escapeChar c ++ escapeStr s

/-- The opening part of the wire document, up to and including the opening
quote of the value string. -/
def encHeader : Str := "\x7b\"response\": \"".data

/-- The JSON encoding of the wire document with response value `S`
(spec section 6). -/
def encodeResponse (S : Str) : Str :=
  encHeader ++ escapeStr S ++ ['\"', '\x7d']

/-- Greedy decoding of a prefix of an escaped string body: a trailing lone
backslash (a cut escape sequence) is dropped, matching the tolerant
parser's refusal to guess content. -/
def decodeOpen : Str → Str
  | [] => []
  | c :: r =>
    if c = '\\' then
      match r with
      | [] => []
      | d :: r' => (decodeEscape d).getD d :: decodeOpen r'
    else c :: decodeOpen r

/-- The value the tolerant parse of a buffer extending `encHeader` within
`encodeResponse S` yields for the response field: the decode of the
consumed part of the escaped body, and the full `S` once the closing quote
has arrived. -/
def valOf (S : Str) (q : Str) : Str :=
  if q.length ≤ (escapeStr S).length then decodeOpen q else S

/-- The emission cursor determined by a buffer that is a prefix of
`encodeResponse S`: empty before the value string opens, `valOf` after. -/
def curOf (S : Str) (p : Str) : Str :=
  if encHeader.length ≤ p.length then valOf S (p.drop encHeader.length) else []

/-- A run is resync-free when at every step the cursor before the step is
a prefix of the cursor after it (spec section 8, "absent a resync
event"). -/
def resyncFree (field : Str) (st : PipeState) : List Str → Bool
  | [] => true
  | c :: cs =>
    st.cursor.isPrefixOf (stepChunk field st c).1.cursor
      && resyncFree field (stepChunk field st c).1 cs

/-- The first non-empty chunk of a stream, when there is one. -/
def firstNonEmpty (chunks : List Str) : Option Str :=
  chunks.find? (fun c => !c.isEmpty)

/-!
Theorems. First a toolbox of unfolding and invariance lemmas about the
pipeline, then one theorem per claim.
-/

theorem structuredStep_of_none {st : PipeState} {c : Str} (field : Str)
    (h : tolerantParse (st.buffer ++ c) = none) :
    structuredStep field st c = ({ st with buffer := st.buffer ++ c }, []) := by
  simp [structuredStep, h]

theorem structuredStep_of_some {st : PipeState} {c : Str}
    {m : List (Str × Str)} (field : Str)
    (h : tolerantParse (st.buffer ++ c) = some m) :
    structuredStep field st c =
      ({ st with buffer := st.buffer ++ c,
                 cursor := (emitDelta st.cursor (extractField field m)).2 },
       (emitDelta st.cursor (extractField field m)).1) := by
  simp [structuredStep, h]

theorem structuredStep_mode (field : Str) (st : PipeState) (c : Str) :
    (structuredStep field st c).1.mode = st.mode := by
  cases h : tolerantParse (st.buffer ++ c) with
  | none => simp [structuredStep_of_none field h]
  | some m => simp [structuredStep_of_some field h]

theorem structuredStep_buffer (field : Str) (st : PipeState) (c : Str) :
    (structuredStep field st c).1.buffer = st.buffer ++ c := by
  cases h : tolerantParse (st.buffer ++ c) with
  | none => simp [structuredStep_of_none field h]
  | some m => simp [structuredStep_of_some field h]

theorem emitDelta_cursor (cursor new : Str) : (emitDelta cursor new).2 = new := by
  unfold emitDelta
  split <;> simp

theorem structuredStep_cursor {st : PipeState} {c : Str}
    {m : List (Str × Str)} (field : Str)
    (h : tolerantParse (st.buffer ++ c) = some m) :
    (structuredStep field st c).1.cursor = extractField field m := by
  simp [structuredStep_of_some field h, emitDelta_cursor]

theorem runPipe_nil (field : Str) (st : PipeState) :
    runPipe field st [] = (st, []) := rfl

theorem runPipe_cons (field : Str) (st : PipeState) (c : Str) (cs : List Str) :
    runPipe field st (c :: cs) =
      ((runPipe field (stepChunk field st c).1 cs).1,
        (stepChunk field st c).2 ++ (runPipe field (stepChunk field st c).1 cs).2) := rfl

theorem runPipe_append (field : Str) (st : PipeState) (l₁ l₂ : List Str) :
    runPipe field st (l₁ ++ l₂) =
      ((runPipe field (runPipe field st l₁).1 l₂).1,
        (runPipe field st l₁).2 ++ (runPipe field (runPipe field st l₁).1 l₂).2) := by
  induction l₁ generalizing st with
  | nil => simp [runPipe_nil]
  | cons c cs ih => simp [runPipe_cons, ih]

theorem stepChunk_of_passthrough {st : PipeState} (field : Str) (c : Str)
    (h : st.mode = Mode.passthrough) : stepChunk field st c = (st, [c]) := by
  simp [stepChunk, h]

theorem runPipe_of_passthrough {st : PipeState} (field : Str) (cs : List Str)
    (h : st.mode = Mode.passthrough) : runPipe field st cs = (st, cs) := by
  induction cs with
  | nil => simp [runPipe_nil]
  | cons c cs ih => simp [runPipe_cons, stepChunk_of_passthrough field c h, ih]

theorem stepChunk_mode_stay {st : PipeState} (field : Str) (c : Str)
    (h : st.mode ≠ Mode.unknown) : (stepChunk field st c).1.mode = st.mode := by
  cases hm : st.mode with
  | unknown => exact absurd hm h
  | passthrough => simp [stepChunk, hm]
  | structured => simpa [stepChunk, hm] using structuredStep_mode field st c

theorem runPipe_mode_stay {st : PipeState} (field : Str) (cs : List Str)
    (h : st.mode ≠ Mode.unknown) : (runPipe field st cs).1.mode = st.mode := by
  induction cs generalizing st with
  | nil => simp [runPipe_nil]
  | cons c cs ih =>
    rw [runPipe_cons]
    simp only
    rw [@ih (stepChunk field st c).1
        (by rw [stepChunk_mode_stay field c h]; exact h)]
    exact stepChunk_mode_stay field c h

theorem stepChunk_of_unknown_empty {st : PipeState} (field : Str)
    (h : st.mode = Mode.unknown) : stepChunk field st [] = (st, []) := by
  simp [stepChunk, h]

theorem stepChunk_of_unknown_brace {st : PipeState} {a : Char} (field : Str)
    (c : Str) (h : st.mode = Mode.unknown) (ha : a = '\x7b') :
    stepChunk field st (a :: c) =
      structuredStep field { st with mode := Mode.structured } (a :: c) := by
  simp [stepChunk, h, ha]

theorem stepChunk_of_unknown_other {st : PipeState} {a : Char} (field : Str)
    (c : Str) (h : st.mode = Mode.unknown) (ha : a ≠ '\x7b') :
    stepChunk field st (a :: c) =
      ({ st with mode := Mode.passthrough }, [a :: c]) := by
  simp [stepChunk, h, ha]

theorem stepChunk_of_structured {st : PipeState} (field : Str) (c : Str)
    (h : st.mode = Mode.structured) :
    stepChunk field st c = structuredStep field st c := by
  simp [stepChunk, h]

theorem runPipe_all_empty (field : Str) (chunks : List Str)
    (h : ∀ c ∈ chunks, c = []) :
    runPipe field initState chunks = (initState, []) := by
  induction chunks with
  | nil => rfl
  | cons c cs ih =>
    have hc : c = [] := h c (by simp)
    subst hc
    rw [runPipe_cons, stepChunk_of_unknown_empty field rfl]
    simp [ih (fun d hd => h d (by simp [hd]))]

/-- Claim C3: for every cursor value and every newly extracted field value
`new`, when `new` has the cursor as a prefix the delta emitter emits
exactly the suffix of `new` past the cursor (nothing when that suffix is
empty) and sets the cursor to `new`; when `new` does not have the cursor
as a prefix it emits `new` in full and sets the cursor to `new`. -/
theorem delta_emitter_spec (cursor new : Str) :
    (cursor.isPrefixOf new = true →
      emitDelta cursor new =
        (if new.drop cursor.length = [] then [] else [new.drop cursor.length],
          new))
    ∧ (cursor.isPrefixOf new = false → emitDelta cursor new = ([new], new)) := by
  constructor <;> intro h <;> simp [emitDelta, h]

/-- Witness for C3: scenario C — cursor `"Hi"`, value `"Hiya"` emits
`"ya"`; cursor `"Hi"`, value `"Hey"` resyncs, emitting `"Hey"` whole. -/
theorem delta_emitter_spec_witness :
    emitDelta "Hi".data "Hiya".data = (["ya".data], "Hiya".data)
    ∧ emitDelta "Hi".data "Hey".data = (["Hey".data], "Hey".data) := by
  constructor
  · rw [(delta_emitter_spec "Hi".data "Hiya".data).1 (by decide)]
    decide
  · rw [(delta_emitter_spec "Hi".data "Hey".data).2 (by decide)]

/-- Claim C6: the Tolerant Partial Parser is a total function that never
signals an error for an incomplete buffer — every buffer yields either
`none` (the non-error `Incomplete` result) or a partial field mapping; and
on `Incomplete` the structured pipeline silently retries: the step keeps
its state (buffer extended, cursor untouched) and emits nothing. -/
theorem partial_parser_no_raise :
    (∀ buf : Str, tolerantParse buf = none ∨ ∃ m, tolerantParse buf = some m)
    ∧ (∀ (field : Str) (st : PipeState) (c : Str), st.mode = Mode.structured →
        tolerantParse (st.buffer ++ c) = none →
        stepChunk field st c = ({ st with buffer := st.buffer ++ c }, [])) := by
  constructor
  · intro buf
    cases h : tolerantParse buf with
    | none => exact Or.inl rfl
    | some m => exact Or.inr ⟨m, rfl⟩
  · intro field st c hm hp
    rw [stepChunk_of_structured field c hm, structuredStep_of_none field hp]

/-- Witness for C6: the spec's incomplete buffer example — a structured
pipeline holding `\x7b"re` receives `sp`; the buffer `\x7b"resp` fails even
the relaxed parse, and the step just extends the buffer and emits
nothing. -/
theorem partial_parser_no_raise_witness :
    stepChunk responseField ⟨Mode.structured, "\x7b\"re".data, []⟩ "sp".data
      = (⟨Mode.structured, "\x7b\"re".data ++ "sp".data, []⟩, []) :=
  partial_parser_no_raise.2 responseField
    ⟨Mode.structured, "\x7b\"re".data, []⟩ "sp".data rfl (by decide)

/-- Claim C7: a pipeline step never shrinks the accumulated buffer — the
old buffer is a prefix of the new one — and every accumulating step (a
structured-mode step, or the step that decides Structured from a leading
brace) extends the buffer by appending the arriving chunk verbatim. -/
theorem accumulated_buffer_append_only (field : Str) (st : PipeState)
    (c : Str) :
    st.buffer <+: (stepChunk field st c).1.buffer
    ∧ ((st.mode = Mode.structured
        ∨ (st.mode = Mode.unknown ∧ c.head? = some '\x7b')) →
        (stepChunk field st c).1.buffer = st.buffer ++ c) := by
  constructor
  · cases hm : st.mode with
    | unknown =>
      cases c with
      | nil => simp [stepChunk_of_unknown_empty field hm]
      | cons a t =>
        by_cases ha : a = '\x7b'
        · rw [stepChunk_of_unknown_brace field t hm ha, structuredStep_buffer]
          exact List.prefix_append _ _
        · simp [stepChunk_of_unknown_other field t hm ha]
    | passthrough => simp [stepChunk_of_passthrough field c hm]
    | structured =>
      rw [stepChunk_of_structured field c hm, structuredStep_buffer]
      exact List.prefix_append _ _
  · rintro (hm | ⟨hm, hh⟩)
    · rw [stepChunk_of_structured field c hm, structuredStep_buffer]
    · cases c with
      | nil => simp at hh
      | cons a t =>
        have ha : a = '\x7b' := by simpa using hh
        rw [stepChunk_of_unknown_brace field t hm ha, structuredStep_buffer]

/-- Witness for C7: a structured step on buffer `\x7b` with chunk `"r`
appends the chunk verbatim. -/
theorem accumulated_buffer_append_only_witness :
    (stepChunk responseField ⟨Mode.structured, "\x7b".data, []⟩ "\"r".data).1.buffer
      = "\x7b".data ++ "\"r".data :=
  (accumulated_buffer_append_only responseField
    ⟨Mode.structured, "\x7b".data, []⟩ "\"r".data).2 (Or.inl rfl)

/-- Claim C10: `Assistant.__init__` uses the provided instructions when
they are a non-empty string, and falls back to the built-in default when
the provided value is `None` or the empty string. -/
theorem assistant_instructions_spec (s : String) :
    (s ≠ "" → assistant_instructions (some s) = s)
    ∧ assistant_instructions (some "") = default_instructions
    ∧ assistant_instructions none = default_instructions := by
  refine ⟨fun h => ?_, rfl, rfl⟩
  simp [assistant_instructions, pyOrStr, h]

/-- Witness for C10: a concrete non-empty instruction string is kept. -/
theorem assistant_instructions_spec_witness :
    assistant_instructions (some "Speak like a pirate.") = "Speak like a pirate." :=
  (assistant_instructions_spec "Speak like a pirate.").1 (by decide)

/-- Claim C4: a step never changes a decided mode; a stream of only empty
chunks leaves the mode undecided; and the mode of a whole run is decided
by the leading character of the first non-empty chunk — a brace yields
Structured, anything else Passthrough — whatever follows. -/
theorem mode_decided_once :
    (∀ (field : Str) (st : PipeState) (c : Str), st.mode ≠ Mode.unknown →
        (stepChunk field st c).1.mode = st.mode)
    ∧ (∀ (field : Str) (chunks : List Str), (∀ c ∈ chunks, c = []) →
        (runPipe field initState chunks).1.mode = Mode.unknown)
    ∧ (∀ (field : Str) (pre : List Str) (c : Str) (post : List Str),
        (∀ d ∈ pre, d = []) → c ≠ [] →
        (runPipe field initState (pre ++ c :: post)).1.mode =
          (if c.head? = some '\x7b' then Mode.structured
           else Mode.passthrough)) := by
  refine ⟨fun field st c h => stepChunk_mode_stay field c h, ?_, ?_⟩
  · intro field chunks h
    rw [runPipe_all_empty field chunks h]
    rfl
  · intro field pre c post hpre hc
    rw [runPipe_append]
    simp only [runPipe_all_empty field pre hpre]
    cases c with
    | nil => exact absurd rfl hc
    | cons a t =>
      rw [runPipe_cons]
      simp only [List.head?_cons]
      by_cases ha : a = '\x7b'
      · have hmode : (stepChunk field initState (a :: t)).1.mode = Mode.structured := by
          rw [stepChunk_of_unknown_brace field t rfl ha, structuredStep_mode]
        rw [runPipe_mode_stay field post (by rw [hmode]; simp), hmode, if_pos (by rw [ha])]
      · have hstep : stepChunk field initState (a :: t)
            = ({ initState with mode := Mode.passthrough }, [a :: t]) :=
          stepChunk_of_unknown_other field t rfl ha
        rw [hstep]
        simp only
        rw [runPipe_mode_stay field post (by simp), if_neg (by simpa using ha)]

/-- Witness for C4: empty chunk, then `"Hi"`, then another empty chunk —
the run ends in Passthrough mode. -/
theorem mode_decided_once_witness :
    (runPipe responseField initState ([[]] ++ "Hi".data :: [[]])).1.mode
      = Mode.passthrough := by
  rw [mode_decided_once.2.2 responseField [[]] "Hi".data [[]] (by decide) (by decide)]
  decide

/-- Claim C2: when the first non-empty chunk does not start with a brace,
the pipeline is a passthrough — the concatenation of everything it emits
equals the concatenation of the input chunks exactly, for any chunk
boundary split. -/
theorem passthrough_identity (field : Str) (chunks : List Str)
    (h : ∀ c, firstNonEmpty chunks = some c → c.head? ≠ some '\x7b') :
    (pipeOutputs field chunks).flatten = chunks.flatten := by
  induction chunks with
  | nil => rfl
  | cons c cs ih =>
    cases c with
    | nil =>
      have hfne : firstNonEmpty ([] :: cs) = firstNonEmpty cs := by
        simp [firstNonEmpty]
      unfold pipeOutputs at ih ⊢
      rw [runPipe_cons, stepChunk_of_unknown_empty field rfl]
      simpa using ih (fun d hd => h d (by rw [hfne]; exact hd))
    | cons a t =>
      have ha : a ≠ '\x7b' := by
        have := h (a :: t) (by simp [firstNonEmpty])
        simpa using this
      unfold pipeOutputs
      rw [runPipe_cons, stepChunk_of_unknown_other field t rfl ha]
      simp only
      rw [runPipe_of_passthrough field cs (by simp)]
      simp

/-- Witness for C2: scenario B — chunks `["Hello", " there"]` are relayed
verbatim, concatenating to `"Hello there"`. -/
theorem passthrough_identity_witness :
    (pipeOutputs responseField ["Hello".data, " there".data]).flatten
      = ["Hello".data, " there".data].flatten := by
  refine passthrough_identity responseField _ ?_
  intro c hc
  have h2 : firstNonEmpty ["Hello".data, " there".data] = some "Hello".data := by
    decide
  rw [h2] at hc
  cases hc
  decide

/-- Claim C9: `create_mcp_servers` keeps exactly the configuration
elements whose `name` and `url` are present and truthy, in order — it is
the `filterMap` sending such an element to its entry (name, transport
defaulting to `"websocket"`, url, optional headers/env) and dropping every
other element — so its output is never longer than its input. -/
theorem create_mcp_servers_spec (configs : List PyDict) :
    create_mcp_servers configs =
      configs.filterMap (fun config =>
        if truthy (dictGet config "name") && truthy (dictGet config "url") then
          some (mkServer config)
        else none)
    ∧ (create_mcp_servers configs).length ≤ configs.length := by
  have heq : create_mcp_servers configs =
      configs.filterMap (fun config =>
        if truthy (dictGet config "name") && truthy (dictGet config "url") then
          some (mkServer config)
        else none) := by
    induction configs with
    | nil => rfl
    | cons c cs ih =>
      by_cases hc : (truthy (dictGet c "name") && truthy (dictGet c "url")) = true
      · rw [List.filterMap_cons_some (by rw [if_pos hc])]
        simp only [create_mcp_servers, if_pos hc, ih]
      · rw [List.filterMap_cons_none (by rw [if_neg hc])]
        simp only [create_mcp_servers, if_neg hc, ih]
  exact ⟨heq, heq ▸ List.length_filterMap_le _ _⟩

/-- Counterexample to claim C8 as stated: in the metadata
`\x7b"instruction_id": 5, "metaverse_id": "abc"\x7d` the `instruction_id`
entry is present and converts to the integer 5 > 0, yet
`should_join_room` returns `(False, 0, 1)` — because `int("abc")` on the
present `metaverse_id` raises `ValueError` — so the result is not
`(True, instruction_id, metaverse_id)`. -/
theorem should_join_room_claim_counterexample :
    dictGet [("instruction_id", PyVal.int 5), ("metaverse_id", PyVal.str "abc")]
        "instruction_id" ≠ PyVal.pynone
    ∧ pyToInt (dictGet
        [("instruction_id", PyVal.int 5), ("metaverse_id", PyVal.str "abc")]
        "instruction_id") = Except.ok 5
    ∧ (0 : Int) < 5
    ∧ should_join_room
        [("instruction_id", PyVal.int 5), ("metaverse_id", PyVal.str "abc")]
        = (false, 0, 1) := by
  exact ⟨by decide, rfl, by decide, rfl⟩

/-- Claim C8 (amended): `should_join_room` returns
`(True, instruction_id, metaverse_id)` exactly when the `instruction_id`
entry is present (not `None`) and converts to an integer greater than 0
and the `metaverse_id` value (defaulting to 1 when absent) also converts
to an integer; in every other case — including when either integer
conversion raises `ValueError` or `TypeError` — it returns
`(False, 0, 1)` and never propagates an exception. -/
theorem should_join_room_spec (md : PyDict) :
    (∀ i m : Int, should_join_room md = (true, i, m) ↔
      (dictGet md "instruction_id" ≠ PyVal.pynone
        ∧ pyToInt (dictGet md "instruction_id") = Except.ok i
        ∧ 0 < i
        ∧ pyToInt (dictGetD md "metaverse_id" (PyVal.int 1)) = Except.ok m))
    ∧ ((should_join_room md).1 = false → should_join_room md = (false, 0, 1)) := by
  by_cases hni : dictGet md "instruction_id" = PyVal.pynone
  · constructor
    · intro i m
      simp [should_join_room, hni]
    · intro _
      simp [should_join_room, hni]
  · cases hpi : pyToInt (dictGet md "instruction_id") with
    | error e =>
      constructor
      · intro i m
        simp [should_join_room, hni, hpi]
      · intro _
        simp [should_join_room, hni, hpi]
    | ok iid =>
      by_cases hpos : iid > 0
      · cases hpm : pyToInt (dictGetD md "metaverse_id" (PyVal.int 1)) with
        | error e =>
          constructor
          · intro i m
            simp only [should_join_room, hni, hpi, hpm, if_pos hpos, ite_true,
              ne_eq, not_false_eq_true]
            constructor
            · intro h
              exact absurd h (by simp)
            · rintro ⟨-, hoki, -, hokm⟩
              simp [hpm] at hokm
          · intro _
            simp [should_join_room, hni, hpi, hpm, hpos]
        | ok mid =>
          constructor
          · intro i m
            simp only [should_join_room, hni, hpi, hpm, if_pos hpos, ite_true,
              ne_eq, not_false_eq_true]
            constructor
            · intro h
              simp only [Prod.mk.injEq] at h
              obtain ⟨-, rfl, rfl⟩ := h
              exact ⟨trivial, rfl, hpos, rfl⟩
            · rintro ⟨-, hoki, hip, hokm⟩
              obtain rfl : iid = i := Except.ok.inj hoki
              obtain rfl : mid = m := Except.ok.inj hokm
              rfl
          · intro h
            simp [should_join_room, hni, hpi, hpm, hpos] at h
      · constructor
        · intro i m
          simp only [should_join_room, hni, hpi, if_neg hpos, ite_false,
            ne_eq, not_false_eq_true]
          constructor
          · intro h
            exact absurd h (by simp)
          · rintro ⟨-, hoki, hip, -⟩
            obtain rfl : iid = i := by simpa using hoki
            exact absurd hip (by omega)
        · intro _
          simp [should_join_room, hni, hpi, hpos]

/-- Witness for C8 (amended): empty metadata has no `instruction_id`, so
the agent does not join and the result is `(False, 0, 1)`. -/
theorem should_join_room_spec_witness :
    should_join_room [] = (false, 0, 1) :=
  (should_join_room_spec []).2 (by decide)

theorem escapeChar_escaped {c : Char} (h : c = '\"' ∨ c = '\\') :
    escapeChar c = ['\\', c] := by
  rcases h with h | h <;> simp [escapeChar, h]

theorem escapeChar_plain {c : Char} (h : ¬(c = '\"' ∨ c = '\\')) :
    escapeChar c = [c] := by
  push_neg at h
  simp [escapeChar, h.1, h.2]

theorem decodeEscape_self {c : Char} (h : c = '\"' ∨ c = '\\') :
    decodeEscape c = some c := by
  rcases h with rfl | rfl <;> decide

theorem decodeOpen_cons_not_bs {c : Char} (h : c ≠ '\\') (r : Str) :
    decodeOpen (c :: r) = c :: decodeOpen r := by
  rw [decodeOpen.eq_def]
  simp [h]

theorem decodeOpen_bs_cons (d : Char) (r : Str) :
    decodeOpen ('\\' :: d :: r) = (decodeEscape d).getD d :: decodeOpen r := by
  simp [decodeOpen]

theorem decodeOpen_escapeStr (S : Str) : decodeOpen (escapeStr S) = S := by
  induction S with
  | nil => rfl
  | cons c S' ih =>
    by_cases hc : c = '\"' ∨ c = '\\'
    · rw [show escapeStr (c :: S') = escapeChar c ++ escapeStr S' from rfl,
        escapeChar_escaped hc]
      simp only [List.cons_append, List.nil_append]
      rw [decodeOpen_bs_cons, decodeEscape_self hc, ih]
      rfl
    · rw [show escapeStr (c :: S') = escapeChar c ++ escapeStr S' from rfl,
        escapeChar_plain hc]
      simp only [List.singleton_append]
      rw [decodeOpen_cons_not_bs (fun hh => hc (Or.inr hh)), ih]

theorem decodeOpen_of_prefix {S q : Str} (hq : q <+: escapeStr S) :
    decodeOpen q <+: S := by
  induction S generalizing q with
  | nil =>
    obtain rfl : q = [] := List.prefix_nil.mp hq
    exact List.prefix_rfl
  | cons c S' ih =>
    by_cases hc : c = '\"' ∨ c = '\\'
    · rw [show escapeStr (c :: S') = escapeChar c ++ escapeStr S' from rfl,
        escapeChar_escaped hc] at hq
      simp only [List.cons_append, List.nil_append] at hq
      rcases q with _ | ⟨a1, q1⟩
      · exact List.nil_prefix
      · rw [List.cons_prefix_cons] at hq
        obtain ⟨rfl, hq1⟩ := hq
        rcases q1 with _ | ⟨a2, q2⟩
        · exact List.nil_prefix
        · rw [List.cons_prefix_cons] at hq1
          obtain ⟨rfl, hq2⟩ := hq1
          rw [decodeOpen_bs_cons, decodeEscape_self hc]
          exact List.cons_prefix_cons.mpr ⟨rfl, ih hq2⟩
    · rw [show escapeStr (c :: S') = escapeChar c ++ escapeStr S' from rfl,
        escapeChar_plain hc] at hq
      simp only [List.singleton_append] at hq
      rcases q with _ | ⟨a1, q1⟩
      · exact List.nil_prefix
      · rw [List.cons_prefix_cons] at hq
        obtain ⟨rfl, hq1⟩ := hq
        rw [decodeOpen_cons_not_bs (fun hh => hc (Or.inr hh))]
        exact List.cons_prefix_cons.mpr ⟨rfl, ih hq1⟩

theorem decodeOpen_mono {S q1 q2 : Str} (h12 : q1 <+: q2)
    (hq : q2 <+: escapeStr S) : decodeOpen q1 <+: decodeOpen q2 := by
  induction S generalizing q1 q2 with
  | nil =>
    obtain rfl : q2 = [] := List.prefix_nil.mp hq
    obtain rfl : q1 = [] := List.prefix_nil.mp h12
    exact List.prefix_rfl
  | cons c S' ih =>
    by_cases hc : c = '\"' ∨ c = '\\'
    · rw [show escapeStr (c :: S') = escapeChar c ++ escapeStr S' from rfl,
        escapeChar_escaped hc] at hq
      simp only [List.cons_append, List.nil_append] at hq
      rcases q2 with _ | ⟨b1, q2'⟩
      · obtain rfl : q1 = [] := List.prefix_nil.mp h12
        exact List.prefix_rfl
      · rw [List.cons_prefix_cons] at hq
        obtain ⟨rfl, hq'⟩ := hq
        rcases q1 with _ | ⟨a1, q1'⟩
        · exact List.nil_prefix
        · rw [List.cons_prefix_cons] at h12
          obtain ⟨rfl, h12'⟩ := h12
          rcases q2' with _ | ⟨b2, q2''⟩
          · obtain rfl : q1' = [] := List.prefix_nil.mp h12'
            exact List.prefix_rfl
          · rw [List.cons_prefix_cons] at hq'
            obtain ⟨rfl, hq''⟩ := hq'
            rcases q1' with _ | ⟨a2, q1''⟩
            · rw [decodeOpen_bs_cons]
              exact List.nil_prefix
            · rw [List.cons_prefix_cons] at h12'
              obtain ⟨rfl, h12''⟩ := h12'
              rw [decodeOpen_bs_cons, decodeOpen_bs_cons]
              exact List.cons_prefix_cons.mpr ⟨rfl, ih h12'' hq''⟩
    · rw [show escapeStr (c :: S') = escapeChar c ++ escapeStr S' from rfl,
        escapeChar_plain hc] at hq
      simp only [List.singleton_append] at hq
      rcases q2 with _ | ⟨b1, q2'⟩
      · obtain rfl : q1 = [] := List.prefix_nil.mp h12
        exact List.prefix_rfl
      · rw [List.cons_prefix_cons] at hq
        obtain ⟨rfl, hq'⟩ := hq
        rcases q1 with _ | ⟨a1, q1'⟩
        · exact List.nil_prefix
        · rw [List.cons_prefix_cons] at h12
          obtain ⟨heq2, h12'⟩ := h12
          subst heq2
          rw [decodeOpen_cons_not_bs (fun hh => hc (Or.inr hh)),
            decodeOpen_cons_not_bs (fun hh => hc (Or.inr hh))]
          exact List.cons_prefix_cons.mpr ⟨rfl, ih h12' hq'⟩

theorem pstep_inValue_bs (a : List (Str × Str)) (k v : Str) :
    pstep (.inValue a k v) '\\' = .inValueEsc a k v := by
  simp [pstep]

theorem pstep_inValueEsc {c : Char} (a : List (Str × Str)) (k v : Str)
    (hc : c = '\"' ∨ c = '\\') :
    pstep (.inValueEsc a k v) c = .inValue a k (v ++ [c]) := by
  simp [pstep, decodeEscape_self hc]

theorem pstep_inValue_plain {c : Char} (a : List (Str × Str)) (k v : Str)
    (hc : ¬(c = '\"' ∨ c = '\\')) :
    pstep (.inValue a k v) c = .inValue a k (v ++ [c]) := by
  have h1 : ¬ c = '\"' := fun hh => hc (Or.inl hh)
  have h2 : ¬ c = '\\' := fun hh => hc (Or.inr hh)
  simp [pstep, h1, h2]

theorem foldl_pstep_escapeStr (S : Str) (a : List (Str × Str)) (k : Str) :
    ∀ v : Str,
      List.foldl pstep (.inValue a k v) (escapeStr S) = .inValue a k (v ++ S) := by
  induction S with
  | nil => intro v; simp [escapeStr]
  | cons c S' ih =>
    intro v
    rw [show escapeStr (c :: S') = escapeChar c ++ escapeStr S' from rfl]
    by_cases hc : c = '\"' ∨ c = '\\'
    · rw [escapeChar_escaped hc]
      simp only [List.cons_append, List.nil_append, List.foldl_cons]
      rw [pstep_inValue_bs, pstep_inValueEsc a k v hc, ih (v ++ [c])]
      simp
    · rw [escapeChar_plain hc]
      simp only [List.singleton_append, List.foldl_cons]
      rw [pstep_inValue_plain a k v hc, ih (v ++ [c])]
      simp

theorem foldl_pstep_escape_prefix {S q : Str} (a : List (Str × Str)) (k : Str)
    (hq : q <+: escapeStr S) :
    ∀ v : Str,
      List.foldl pstep (.inValue a k v) q = .inValue a k (v ++ decodeOpen q)
      ∨ List.foldl pstep (.inValue a k v) q = .inValueEsc a k (v ++ decodeOpen q) := by
  induction S generalizing q with
  | nil =>
    obtain rfl : q = [] := List.prefix_nil.mp hq
    intro v
    left
    simp [decodeOpen]
  | cons c S' ih =>
    intro v
    rw [show escapeStr (c :: S') = escapeChar c ++ escapeStr S' from rfl] at hq
    by_cases hc : c = '\"' ∨ c = '\\'
    · rw [escapeChar_escaped hc] at hq
      simp only [List.cons_append, List.nil_append] at hq
      rcases q with _ | ⟨a1, q1⟩
      · left; simp [decodeOpen]
      · rw [List.cons_prefix_cons] at hq
        obtain ⟨rfl, hq1⟩ := hq
        rcases q1 with _ | ⟨a2, q2⟩
        · right
          rw [List.foldl_cons, List.foldl_nil, pstep_inValue_bs]
          simp [decodeOpen]
        · rw [List.cons_prefix_cons] at hq1
          obtain ⟨heq, hq2⟩ := hq1
          subst heq
          rw [List.foldl_cons, List.foldl_cons, pstep_inValue_bs,
            pstep_inValueEsc a k v hc,
            decodeOpen_bs_cons, decodeEscape_self hc]
          simpa [List.append_assoc] using ih hq2 (v ++ [a2])
    · rw [escapeChar_plain hc] at hq
      simp only [List.singleton_append] at hq
      rcases q with _ | ⟨a1, q1⟩
      · left; simp [decodeOpen]
      · rw [List.cons_prefix_cons] at hq
        obtain ⟨heq, hq1⟩ := hq
        subst heq
        rw [List.foldl_cons, pstep_inValue_plain a k v hc,
          decodeOpen_cons_not_bs (fun hh => hc (Or.inr hh))]
        simpa [List.append_assoc] using ih hq1 (v ++ [a1])

theorem pstep_inValue_quote (a : List (Str × Str)) (k v : Str) :
    pstep (.inValue a k v) '\"' = .afterValue (a ++ [(k, v)]) := rfl

theorem pstep_afterValue_close (a : List (Str × Str)) :
    pstep (.afterValue a) '\x7d' = .done a := rfl

theorem foldl_pstep_encHeader :
    List.foldl pstep .start encHeader = .inValue [] responseField [] := by
  decide

theorem extractField_single (x : Str) :
    extractField responseField [(responseField, x)] = x := by
  simp [extractField]

theorem tolerantParse_early :
    ∀ p ∈ encHeader.inits, p ≠ encHeader →
      (tolerantParse p = none ∨ tolerantParse p = some []) := by
  decide

theorem tolerantParse_of_short {p : Str} (hp : p <+: encHeader)
    (hne : p ≠ encHeader) :
    tolerantParse p = none ∨ tolerantParse p = some [] :=
  tolerantParse_early p ((List.mem_inits p encHeader).mpr hp) hne

theorem encodeResponse_assoc (S : Str) :
    encodeResponse S = encHeader ++ (escapeStr S ++ ['\"', '\x7d']) := by
  rw [encodeResponse, List.append_assoc]

theorem curOf_header_append (S q : Str) :
    curOf S (encHeader ++ q) = valOf S q := by
  rw [curOf, if_pos (by simp), List.drop_left]

theorem tolerantParse_of_long {S p : Str} (hhead : encHeader <+: p)
    (hp : p <+: encodeResponse S) :
    tolerantParse p = some [(responseField, curOf S p)] := by
  obtain ⟨q, rfl⟩ := hhead
  rw [encodeResponse_assoc] at hp
  have hq : q <+: escapeStr S ++ ['\"', '\x7d'] :=
    (List.prefix_append_right_inj encHeader).mp hp
  rw [curOf_header_append]
  rw [tolerantParse, List.foldl_append, foldl_pstep_encHeader]
  by_cases hlen : q.length ≤ (escapeStr S).length
  · have hqE : q <+: escapeStr S :=
      List.prefix_of_prefix_length_le hq (List.prefix_append _ _)
        (by simpa using hlen)
    rcases foldl_pstep_escape_prefix [] responseField hqE [] with h | h <;>
      rw [h] <;> simp [finalize, valOf, hlen]
  · have hlq : q.length ≤ (escapeStr S).length + 2 := by
      have := hq.length_le
      simpa [List.length_append] using this
    have hqt : q = (escapeStr S ++ ['\"', '\x7d']).take q.length :=
      List.prefix_iff_eq_take.mp hq
    rcases (by omega : q.length = (escapeStr S).length + 1
        ∨ q.length = (escapeStr S).length + 2) with h1 | h2
    · have hqe : q = escapeStr S ++ ['\"'] := by
        rw [hqt, show escapeStr S ++ ['\"', '\x7d']
            = (escapeStr S ++ ['\"']) ++ ['\x7d'] from by simp,
          List.take_left' (by simp [h1])]
      subst hqe
      rw [List.foldl_append, foldl_pstep_escapeStr, List.nil_append]
      simp only [List.foldl_cons, List.foldl_nil, pstep_inValue_quote,
        List.nil_append]
      rw [valOf, if_neg (by omega)]
      rfl
    · have hqe : q = escapeStr S ++ ['\"', '\x7d'] :=
        List.IsPrefix.eq_of_length hq (by simp [h2])
      subst hqe
      rw [show escapeStr S ++ ['\"', '\x7d']
          = (escapeStr S ++ ['\"']) ++ ['\x7d'] from by simp]
      rw [List.foldl_append, List.foldl_append, foldl_pstep_escapeStr,
        List.nil_append]
      simp only [List.foldl_cons, List.foldl_nil, pstep_inValue_quote,
        pstep_afterValue_close, List.nil_append]
      rw [valOf, if_neg (by simp)]
      rfl

theorem encHeader_prefix_encode (S : Str) : encHeader <+: encodeResponse S := by
  rw [encodeResponse_assoc]
  exact List.prefix_append _ _

theorem curOf_short {S p : Str} (h : p.length < encHeader.length) :
    curOf S p = [] := by
  rw [curOf, if_neg (by omega)]

theorem curOf_full (S : Str) : curOf S (encodeResponse S) = S := by
  rw [encodeResponse_assoc, curOf_header_append, valOf, if_neg (by simp)]

theorem curOf_mono {S p1 p2 : Str} (h12 : p1 <+: p2)
    (h2 : p2 <+: encodeResponse S) : curOf S p1 <+: curOf S p2 := by
  by_cases hl1 : encHeader.length ≤ p1.length
  · have h1 : p1 <+: encodeResponse S := h12.trans h2
    obtain ⟨q1, rfl⟩ : encHeader <+: p1 :=
      List.prefix_of_prefix_length_le (encHeader_prefix_encode S) h1 hl1
    obtain ⟨q2, rfl⟩ : encHeader <+: p2 :=
      List.prefix_of_prefix_length_le (encHeader_prefix_encode S) h2
        (le_trans hl1 h12.length_le)
    have hq12 : q1 <+: q2 := (List.prefix_append_right_inj encHeader).mp h12
    have hq2 : q2 <+: escapeStr S ++ ['\"', '\x7d'] := by
      rw [encodeResponse_assoc] at h2
      exact (List.prefix_append_right_inj encHeader).mp h2
    rw [curOf_header_append, curOf_header_append]
    by_cases hq2E : q2.length ≤ (escapeStr S).length
    · have hq2E' : q2 <+: escapeStr S :=
        List.prefix_of_prefix_length_le hq2 (List.prefix_append _ _)
          (by simpa using hq2E)
      rw [valOf, if_pos (le_trans hq12.length_le hq2E), valOf, if_pos hq2E]
      exact decodeOpen_mono hq12 hq2E'
    · simp only [valOf]
      rw [if_neg hq2E]
      by_cases hq1E : q1.length ≤ (escapeStr S).length
      · rw [if_pos hq1E]
        exact decodeOpen_of_prefix
          (List.prefix_of_prefix_length_le (hq12.trans hq2)
            (List.prefix_append _ _) (by simpa using hq1E))
      · rw [if_neg hq1E]
  · rw [curOf_short (by omega)]
    exact List.nil_prefix

theorem emitDelta_ext {cursor new : Str} (h : cursor <+: new) :
    (emitDelta cursor new).2 = new
    ∧ cursor ++ ((emitDelta cursor new).1).flatten = new := by
  obtain ⟨t, rfl⟩ := h
  have hb : cursor.isPrefixOf (cursor ++ t) = true := by
    rw [ List.isPrefixOf_iff_prefix]
    exact List.prefix_append _ _
  constructor
  · simp [emitDelta, hb]
  · simp only [emitDelta, hb, if_true, List.drop_left]
    by_cases ht : t = [] <;> simp [ht]

theorem structuredStep_invariant {S : Str} (st : PipeState) (c : Str)
    (hbuf : st.buffer ++ c <+: encodeResponse S)
    (hcur : st.cursor = curOf S st.buffer) :
    (structuredStep responseField st c).1.cursor = curOf S (st.buffer ++ c)
    ∧ st.cursor ++ ((structuredStep responseField st c).2).flatten
        = curOf S (st.buffer ++ c) := by
  have hbb : st.buffer <+: st.buffer ++ c := List.prefix_append _ _
  by_cases hlen : encHeader.length ≤ (st.buffer ++ c).length
  · have hh : encHeader <+: st.buffer ++ c :=
      List.prefix_of_prefix_length_le (encHeader_prefix_encode S) hbuf hlen
    have hparse := tolerantParse_of_long hh hbuf
    have hmono : st.cursor <+: curOf S (st.buffer ++ c) := by
      rw [hcur]
      exact curOf_mono hbb hbuf
    constructor
    · rw [structuredStep_cursor responseField hparse, extractField_single]
    · rw [structuredStep_of_some responseField hparse]
      simp only
      rw [extractField_single]
      exact (emitDelta_ext hmono).2
  · have hne : st.buffer ++ c ≠ encHeader := by
      intro hh
      rw [hh] at hlen
      exact hlen (le_refl _)
    have hshort : st.buffer ++ c <+: encHeader :=
      List.prefix_of_prefix_length_le hbuf (encHeader_prefix_encode S)
        (by omega)
    have hcur0 : st.cursor = [] := by
      rw [hcur, curOf_short]
      have := List.length_append st.buffer c
      omega
    have hcur1 : curOf S (st.buffer ++ c) = [] := curOf_short (by omega)
    rcases tolerantParse_of_short hshort hne with hp | hp
    · rw [structuredStep_of_none responseField hp]
      constructor
      · rw [hcur0, hcur1]
      · rw [hcur0, hcur1]
        rfl
    · rw [structuredStep_of_some responseField hp]
      simp only
      constructor
      · rw [emitDelta_cursor, hcur1]
        rfl
      · rw [hcur0, hcur1]
        rfl

theorem runPipe_structured_invariant {S : Str} (chunks : List Str) :
    ∀ st : PipeState, st.mode = Mode.structured →
      st.buffer ++ chunks.flatten <+: encodeResponse S →
      st.cursor = curOf S st.buffer →
      (runPipe responseField st chunks).1.cursor
          = curOf S (st.buffer ++ chunks.flatten)
      ∧ st.cursor ++ ((runPipe responseField st chunks).2).flatten
          = curOf S (st.buffer ++ chunks.flatten) := by
  induction chunks with
  | nil =>
    intro st hm hbuf hcur
    simp [runPipe_nil, hcur]
  | cons c cs ih =>
    intro st hm hbuf hcur
    have hbuf' : (st.buffer ++ c) ++ cs.flatten <+: encodeResponse S := by
      rw [List.append_assoc, ← List.flatten_cons]
      exact hbuf
    have hbc : st.buffer ++ c <+: encodeResponse S :=
      (List.prefix_append _ _).trans hbuf'
    have hstep := @structuredStep_invariant S st c hbc hcur
    have hsc : stepChunk responseField st c = structuredStep responseField st c :=
      stepChunk_of_structured responseField c hm
    have hm1 : (structuredStep responseField st c).1.mode = Mode.structured := by
      rw [structuredStep_mode]
      exact hm
    have hb1 : (structuredStep responseField st c).1.buffer = st.buffer ++ c :=
      structuredStep_buffer responseField st c
    have ih' := ih (structuredStep responseField st c).1 hm1
      (by rw [hb1]; exact hbuf') (by rw [hb1]; exact hstep.1)
    rw [runPipe_cons, hsc]
    constructor
    · rw [ih'.1, hb1, List.flatten_cons, List.append_assoc]
    · rw [List.flatten_append, ← List.append_assoc, hstep.2]
      have h2 := ih'.2
      rw [hb1, hstep.1] at h2
      rw [h2, List.flatten_cons, List.append_assoc]

/-- Claim C1: for every string `S` and every way of splitting the JSON
encoding of the wire document with response `S` into chunks, the
concatenation of all deltas the pipeline emits equals `S` exactly. -/
theorem round_trip (S : Str) (chunks : List Str)
    (h : chunks.flatten = encodeResponse S) :
    (pipeOutputs responseField chunks).flatten = S := by
  induction chunks with
  | nil =>
    exfalso
    have h14 : encHeader.length = 14 := by decide
    have hlen := congrArg List.length h
    rw [encodeResponse] at hlen
    simp [List.length_append, h14] at hlen
    omega
  | cons c cs ih =>
    rcases c with _ | ⟨a, t⟩
    · rw [List.flatten_cons, List.nil_append] at h
      rw [pipeOutputs, runPipe_cons, stepChunk_of_unknown_empty responseField rfl]
      simpa [pipeOutputs] using ih h
    · have ha : a = '\x7b' := by
        have hx : a :: (t ++ cs.flatten) = encodeResponse S := by
          rw [← List.cons_append, ← List.flatten_cons]
          exact h
        have henc : encodeResponse S
            = '\x7b' :: ("\"response\": \"".data ++ (escapeStr S ++ ['\"', '\x7d'])) := by
          rw [encodeResponse_assoc]
          rfl
        rw [henc] at hx
        injection hx with h1 _
      subst ha
      have hswitch : runPipe responseField initState (('\x7b' :: t) :: cs)
          = runPipe responseField ⟨Mode.structured, [], []⟩ (('\x7b' :: t) :: cs) := by
        rw [runPipe_cons, runPipe_cons,
          stepChunk_of_unknown_brace responseField t rfl rfl,
          stepChunk_of_structured responseField ('\x7b' :: t) rfl]
        rfl
      have hrun := @runPipe_structured_invariant S (('\x7b' :: t) :: cs)
        ⟨Mode.structured, [], []⟩ rfl
        (by rw [List.nil_append, h]) rfl
      rw [pipeOutputs, hswitch]
      have h2 := hrun.2
      rw [List.nil_append, List.nil_append, h, curOf_full] at h2
      exact h2

/-- Witness for C1: scenario A — the chunks
`["\x7b\"resp", "onse\": \"Hel", "lo wor", "ld\"\x7d"]` concatenate to the
encoding of response `"Hello world"`, and the emitted deltas concatenate
to `"Hello world"`. -/
theorem round_trip_witness :
    (pipeOutputs responseField
        ["\x7b\"resp".data, "onse\": \"Hel".data, "lo wor".data, "ld\"\x7d".data]).flatten
      = "Hello world".data :=
  round_trip "Hello world".data _ (by decide)

theorem resyncFree_cons (f : Str) (st : PipeState) (c : Str) (cs : List Str) :
    resyncFree f st (c :: cs)
      = (st.cursor.isPrefixOf (stepChunk f st c).1.cursor
          && resyncFree f (stepChunk f st c).1 cs) := rfl

theorem resyncFree_append (f : Str) (l₁ l₂ : List Str) :
    ∀ st : PipeState,
      resyncFree f st (l₁ ++ l₂)
        = (resyncFree f st l₁ && resyncFree f (runPipe f st l₁).1 l₂) := by
  induction l₁ with
  | nil => intro st; simp [resyncFree, runPipe_nil]
  | cons c cs ih =>
    intro st
    rw [List.cons_append, resyncFree_cons, resyncFree_cons, ih, runPipe_cons,
      Bool.and_assoc]

theorem runPipe_cursor_mono (f : Str) (cs : List Str) :
    ∀ st : PipeState, resyncFree f st cs = true →
      st.cursor <+: (runPipe f st cs).1.cursor := by
  induction cs with
  | nil =>
    intro st _
    simp [runPipe_nil]
  | cons c cs ih =>
    intro st h
    rw [resyncFree_cons, Bool.and_eq_true] at h
    rw [runPipe_cons]
    exact (( List.isPrefixOf_iff_prefix).mp h.1).trans (ih _ h.2)

theorem structuredStep_emit (f : Str) (st : PipeState) (c : Str)
    (h : st.cursor.isPrefixOf (structuredStep f st c).1.cursor = true) :
    st.cursor ++ ((structuredStep f st c).2).flatten
      = (structuredStep f st c).1.cursor := by
  cases hp : tolerantParse (st.buffer ++ c) with
  | none =>
    rw [structuredStep_of_none f hp]
    simp
  | some m =>
    rw [structuredStep_of_some f hp] at h ⊢
    simp only at h ⊢
    rw [emitDelta_cursor] at h ⊢
    exact (emitDelta_ext (( List.isPrefixOf_iff_prefix).mp h)).2

theorem stepChunk_emit (f : Str) (st : PipeState) (c : Str)
    (hmode : (stepChunk f st c).1.mode ≠ Mode.passthrough)
    (h : st.cursor.isPrefixOf (stepChunk f st c).1.cursor = true) :
    st.cursor ++ ((stepChunk f st c).2).flatten = (stepChunk f st c).1.cursor := by
  cases hm : st.mode with
  | passthrough =>
    exfalso
    apply hmode
    rw [stepChunk_mode_stay f c (by simp [hm]), hm]
  | structured =>
    rw [stepChunk_of_structured f c hm] at h ⊢
    exact structuredStep_emit f st c h
  | unknown =>
    rcases c with _ | ⟨a, t⟩
    · rw [stepChunk_of_unknown_empty f hm]
      simp
    · by_cases hA : a = '\x7b'
      · rw [stepChunk_of_unknown_brace f t hm hA] at h ⊢
        exact structuredStep_emit f { st with mode := Mode.structured } (a :: t) h
      · rw [stepChunk_of_unknown_other f t hm hA] at hmode
        exact absurd rfl hmode

theorem runPipe_emit (f : Str) (cs : List Str) :
    ∀ st : PipeState, resyncFree f st cs = true →
      (runPipe f st cs).1.mode ≠ Mode.passthrough →
      st.cursor ++ ((runPipe f st cs).2).flatten = (runPipe f st cs).1.cursor := by
  induction cs with
  | nil =>
    intro st _ _
    simp [runPipe_nil]
  | cons c cs ih =>
    intro st hr hmode
    rw [resyncFree_cons, Bool.and_eq_true] at hr
    rw [runPipe_cons] at hmode ⊢
    simp only at hmode ⊢
    have hstepmode : (stepChunk f st c).1.mode ≠ Mode.passthrough := by
      intro hp
      apply hmode
      rw [runPipe_mode_stay f cs (by simp [hp]), hp]
    have h1 := stepChunk_emit f st c hstepmode hr.1
    have h2 := ih (stepChunk f st c).1 hr.2 hmode
    rw [List.flatten_append, ← List.append_assoc, h1, h2]

theorem runPipe_state_shape (f : Str) (cs : List Str) :
    ((runPipe f initState cs).1 = initState ∧ cs.flatten = [])
    ∨ (runPipe f initState cs).1.mode = Mode.passthrough
    ∨ ((runPipe f initState cs).1.mode = Mode.structured
        ∧ (runPipe f initState cs).1.buffer = cs.flatten) := by
  induction cs using List.reverseRecOn with
  | nil => exact Or.inl ⟨rfl, rfl⟩
  | append_singleton cs c ih =>
    rw [runPipe_append]
    simp only [runPipe_cons, runPipe_nil]
    rcases ih with ⟨hs, hf⟩ | hp | ⟨hm, hb⟩
    · rw [hs]
      rcases c with _ | ⟨a, t⟩
      · rw [stepChunk_of_unknown_empty f rfl]
        exact Or.inl ⟨rfl, by simp [hf]⟩
      · by_cases hA : a = '\x7b'
        · subst hA
          rw [stepChunk_of_unknown_brace f t rfl rfl]
          refine Or.inr (Or.inr ⟨?_, ?_⟩)
          · rw [structuredStep_mode]
          · rw [structuredStep_buffer]
            simp only [List.flatten_append, hf, List.nil_append,
              List.flatten_cons, List.flatten_nil, List.append_nil]
            rfl
        · rw [stepChunk_of_unknown_other f t rfl hA]
          exact Or.inr (Or.inl rfl)
    · rw [stepChunk_of_passthrough f c hp]
      exact Or.inr (Or.inl hp)
    · rw [stepChunk_of_structured f c hm]
      refine Or.inr (Or.inr ⟨?_, ?_⟩)
      · rw [structuredStep_mode]
        exact hm
      · rw [structuredStep_buffer, hb]
        simp

theorem runPipe_final_cursor (f : Str) (chunks : List Str)
    (m : List (Str × Str))
    (hmode : (runPipe f initState chunks).1.mode = Mode.structured)
    (hparse : tolerantParse chunks.flatten = some m) :
    (runPipe f initState chunks).1.cursor = extractField f m := by
  induction chunks using List.reverseRecOn with
  | nil =>
    rw [runPipe_nil] at hmode
    exact absurd hmode (by decide)
  | append_singleton cs c _ =>
    rw [runPipe_append] at hmode ⊢
    simp only [runPipe_cons, runPipe_nil] at hmode ⊢
    rcases runPipe_state_shape f cs with ⟨hs, hf⟩ | hp | ⟨hm, hb⟩
    · rw [hs] at hmode ⊢
      rcases c with _ | ⟨a, t⟩
      · rw [stepChunk_of_unknown_empty f rfl] at hmode
        exact absurd hmode (by decide)
      · by_cases hA : a = '\x7b'
        · subst hA
          rw [stepChunk_of_unknown_brace f t rfl rfl]
          have hflat : (cs ++ ['\x7b' :: t]).flatten = '\x7b' :: t := by
            simp [hf]
          rw [hflat] at hparse
          exact structuredStep_cursor f (by simpa using hparse)
        · rw [stepChunk_of_unknown_other f t rfl hA] at hmode
          simp at hmode
    · exfalso
      rw [stepChunk_of_passthrough f c hp] at hmode
      rw [hp] at hmode
      exact absurd hmode (by decide)
    · rw [stepChunk_of_structured f c hm]
      have hpb : tolerantParse ((runPipe f initState cs).1.buffer ++ c) = some m := by
        rw [hb]
        simpa [List.flatten_append] using hparse
      exact structuredStep_cursor f hpb

/-- Claim C5: in a Structured run with no resync event, the concatenation
of the deltas emitted over any leading segment of the stream is a prefix
of the field's true final value — the value the tolerant parse of the full
buffer assigns to the field. -/
theorem no_overrun (field : Str) (chunks pre post : List Str)
    (m : List (Str × Str)) (hsplit : chunks = pre ++ post)
    (hnr : resyncFree field initState chunks = true)
    (hstruct : (runPipe field initState chunks).1.mode = Mode.structured)
    (hparse : tolerantParse chunks.flatten = some m) :
    ((runPipe field initState pre).2).flatten <+: extractField field m := by
  subst hsplit
  rw [resyncFree_append field pre post initState, Bool.and_eq_true] at hnr
  have hpremode : (runPipe field initState pre).1.mode ≠ Mode.passthrough := by
    intro hp
    rw [runPipe_append] at hstruct
    simp only at hstruct
    rw [runPipe_mode_stay field post (by simp [hp]), hp] at hstruct
    exact absurd hstruct (by decide)
  have hemit := runPipe_emit field pre initState hnr.1 hpremode
  rw [show initState.cursor = [] from rfl, List.nil_append] at hemit
  rw [hemit]
  have hmono := runPipe_cursor_mono field post (runPipe field initState pre).1 hnr.2
  have hfin := runPipe_final_cursor field (pre ++ post) m hstruct hparse
  rw [runPipe_append] at hfin
  simp only at hfin
  rw [hfin] at hmono
  exact hmono

/-- Witness for C5: scenario A truncated after two chunks — the deltas
emitted so far concatenate to `"Hel"`, a prefix of the final value
`"Hello world"`. -/
theorem no_overrun_witness :
    ((runPipe responseField initState
        ["\x7b\"resp".data, "onse\": \"Hel".data]).2).flatten
      <+: extractField responseField [(responseField, "Hello world".data)] :=
  no_overrun responseField
    ["\x7b\"resp".data, "onse\": \"Hel".data, "lo wor".data, "ld\"\x7d".data]
    ["\x7b\"resp".data, "onse\": \"Hel".data]
    ["lo wor".data, "ld\"\x7d".data]
    [(responseField, "Hello world".data)]
    rfl (by decide) (by decide) (by decide)




